import Mathlib

/-!
Verification of the docusaurus-migrate page transformer
(`packages/docusaurus-migrate/src/transform.ts`).

The transformer is a jscodeshift codemod over a JavaScript syntax tree.  We
give a shallow embedding of the fragment of the ESTree syntax it consumes and
produces, and of the transformer itself:

* `Expr`, `Declarator`, `Stmt` mirror the AST nodes the codemod inspects or
  builds (call expressions, member expressions, string/number literals,
  template literals, object literals, arrow functions, JSX elements,
  assignments; variable declarations, expression statements, if statements,
  blocks, function declarations, import declarations, default export
  declarations).  Comments are modelled on the two statement forms whose
  comments the codemod reads or writes (`exprStmt` / `exportDefault`).
* `processCallExpression` / `processMemberExpression` are embedded as a
  classifier `classifyCallArg` / `classifyMemberArg` producing a
  `Decision`, plus `applyDecision` building the replacement declarator —
  together `rewriteDeclarator` performs exactly the per-declarator mutation
  of the source (decisions are local to one declarator, so running the
  source's forEach over the collected paths equals one rewriting traversal).
* `getImportDeclaratorPaths` is embedded by `findIn` (a pre-order collection
  of declarator paths, as jscodeshift's `find` produces) applied to the two
  filter predicates of `getDefaultImportDeclarations` (init.callee.name =
  "require") and `getNamedImportDeclarations` (init.object.callee.name =
  "require"), concatenated in that order, as in the source.
* The companion-import insertion (`insertAfter` on the parent statement of
  the last collected path) is `insertAfterLoc`.
* The `module.exports = <identifier>` export rewrite with its
  `parentPath.parentPath.name === 'body'` filter is `exportStmts`: the
  filter accepts exactly the assignment expressions that are the direct
  expression of an expression statement sitting in a statement-list array
  (the top level, a block body, a function body, or a braced if branch),
  so the embedded pass replaces matching expression statements in every
  statement list and leaves assignments nested inside larger expressions
  alone.
-/

/-- ESTree expression fragment used by the transform.  `str`/`num` are the
two `Literal` value shapes the transform distinguishes; `tmpl` keeps the
template literal's raw text segments (`quasis`) and embedded expressions;
`jsx` collapses a JSX element to its tag name, the list of spread-attribute
expressions, its self-closing flag and its children. -/
inductive Expr where
  | ident (name : String)
  | str (value : String)
  | num (value : Int)
  | tmpl (quasis : List String) (exprs : List Expr)
  | call (callee : Expr) (args : List Expr)
  | member (obj : Expr) (prop : Expr)
  | objE (props : List (String × Expr))
  | arrow (params : List String) (body : Expr)
  | jsx (tag : String) (spreads : List Expr) (selfClosing : Bool) (children : List Expr)
  | assign (op : String) (left : Expr) (right : Expr)

/-- A `VariableDeclarator`: the bound identifier and the optional
initializer. -/
structure Declarator where
  id : String
  init : Option Expr

/-- ESTree statement fragment used by the transform.  Bodies of blocks,
function declarations and (braced) if branches are statement lists, matching
the `body` arrays jscodeshift traverses.  Comments are carried where the
transform reads/writes them. -/
inductive Stmt where
  | varDecl (kind : String) (decls : List Declarator)
  | exprStmt (e : Expr) (comments : List String)
  | ifStmt (test : Expr) (cons : List Stmt) (alt : Option (List Stmt))
  | block (body : List Stmt)
  | funcDecl (name : String) (params : List String) (body : List Stmt)
  | importDecl (localName : String) (source : String)
  | exportDefault (e : Expr) (comments : List String)

/-- Whether `pat` is an initial run of `s` (character lists). -/
def leadsList : List Char → List Char → Bool
  | [], _ => true
  | _ :: _, [] => false
  | a :: pr, b :: sr => a == b && leadsList pr sr

/-- Whether `pat` occurs contiguously somewhere in `s` (character lists). -/
def occursIn : List Char → List Char → Bool
  | pat, [] => pat.isEmpty
  | pat, c :: sr => leadsList pat (c :: sr) || occursIn pat sr

/-- JS `String.prototype.includes` / regex substring test: `pat` occurs
somewhere in `s`. -/
def strContains (s pat : String) : Bool :=
  occursIn pat.toList s.toList

/-- The `empty` builder of transform.ts:
`(props) => <div {...props}></div>` (opening element with one spread
attribute, explicit closing element, no children). -/
def emptyStub : Expr :=
  .arrow ["props"] (.jsx "div" [.ident "props"] false [])

/-- The three-property object literal built for the CompLibrary rules:
`{Container: empty(), GridBlock: empty(), MarkdownBlock: empty()}`. -/
def threeStubObject : Expr :=
  .objE [("Container", emptyStub), ("GridBlock", emptyStub), ("MarkdownBlock", emptyStub)]

/-- The spec's rewrite decision, read off from the branch structure of
`processCallExpression` / `processMemberExpression`. -/
inductive Decision where
  | threeStub
  | singleStub
  | noop
  deriving DecidableEq

/-- Branches of `processCallExpression` on `init.arguments[0]`:
absent argument returns; a string `Literal` containing
`'../../core/CompLibrary'` yields the three-stub object; a
`TemplateLiteral` whose joined raw quasis match `/\/core\//` yields a
single stub; everything else falls through untouched. -/
def classifyCallArg : Option Expr → Decision
  | none => .noop
  | some (.str s) =>
      if strContains s "../../core/CompLibrary" then .threeStub else .noop
  | some (.tmpl quasis _) =>
      if strContains (String.join quasis) "/core/" then .singleStub else .noop
  | some _ => .noop

/-- Branches of `processMemberExpression` on the inner call's
`arguments[0]`: a `Literal` strictly equal to `'../../core/CompLibrary.js'`
yields the three-stub object, else a string matching `/server/` yields a
single stub; a `TemplateLiteral` joined-quasis match of `/\/core\//` yields
a single stub; everything else falls through untouched. -/
def classifyMemberArg : Option Expr → Decision
  | none => .noop
  | some (.str s) =>
      if s = "../../core/CompLibrary.js" then .threeStub
      else if strContains s "server" then .singleStub
      else .noop
  | some (.tmpl quasis _) =>
      if strContains (String.join quasis) "/core/" then .singleStub else .noop
  | some _ => .noop

/-- Embedding of `jscodeshift(node).replaceWith(newDeclarator)` for the non-noop
decisions: the replacement reuses `node.value.id` and installs the newly
built initializer. -/
def applyDecision (d : Declarator) : Decision → Declarator
  | .threeStub => ⟨d.id, some threeStubObject⟩
  | .singleStub => ⟨d.id, some emptyStub⟩
  | .noop => d

/-- Filter of `getDefaultImportDeclarations`:
`init.callee.name === 'require'` (so the initializer is a call whose callee
is the identifier `require`). -/
def declMatchesDefault (d : Declarator) : Bool :=
  match d.init with
  | some (.call (.ident "require") _) => true
  | _ => false

/-- Filter of `getNamedImportDeclarations`:
`init.object.callee.name === 'require'` (the initializer is a member
access whose object is a call to `require`). -/
def declMatchesNamed (d : Declarator) : Bool :=
  match d.init with
  | some (.member (.call (.ident "require") _) _) => true
  | _ => false

/-- Per-candidate dispatch of the transformer's forEach:
`CallExpression` initializers go through `processCallExpression`,
`MemberExpression` initializers through `processMemberExpression`; a
declarator matching neither collection filter is never visited and stays
unchanged. -/
def rewriteDeclarator (d : Declarator) : Declarator :=
  match d.init with
  | some (.call (.ident "require") args) =>
      applyDecision d (classifyCallArg args.head?)
  | some (.member (.call (.ident "require") args) _) =>
      applyDecision d (classifyMemberArg args.head?)
  | _ => d

mutual

/-- Apply the candidate rewrites inside one statement (the declarator
mutations of the forEach, reaching nested statement lists exactly as
jscodeshift's `find` does). -/
def rewriteStmt : Stmt → Stmt
  | .varDecl k ds => .varDecl k (ds.map rewriteDeclarator)
  | .exprStmt e cs => .exprStmt e cs
  | .ifStmt t c a =>
      .ifStmt t (rewriteStmts c)
        (match a with
         | some b => some (rewriteStmts b)
         | none => none)
  | .block b => .block (rewriteStmts b)
  | .funcDecl n ps b => .funcDecl n ps (rewriteStmts b)
  | .importDecl l s => .importDecl l s
  | .exportDefault e cs => .exportDefault e cs

/-- Apply the candidate rewrites over a statement list. -/
def rewriteStmts : List Stmt → List Stmt
  | [] => []
  | s :: r => rewriteStmt s :: rewriteStmts r

end

/-- A step from a statement list into a nested statement list: descend into
the body of the block / function / if statement at index `i`. -/
inductive Step where
  | intoBlock (i : Nat)
  | intoFunc (i : Nat)
  | intoCons (i : Nat)
  | intoAlt (i : Nat)
  deriving DecidableEq

/-- A collected declarator path, as jscodeshift's `find` produces it:
the statement-list address of the containing statement (`path`), the
statement's index in that list (`stmtIdx`), the declarator's index in the
declaration (`declIdx`) and the declarator node itself. -/
structure Cand where
  path : List Step
  stmtIdx : Nat
  declIdx : Nat
  decl : Declarator

/-- Shift a step's statement index by one (used when the enclosing list
grows a statement in front). -/
def bumpStep : Step → Step
  | .intoBlock i => .intoBlock (i + 1)
  | .intoFunc i => .intoFunc (i + 1)
  | .intoCons i => .intoCons (i + 1)
  | .intoAlt i => .intoAlt (i + 1)

/-- Re-address a candidate of a list `rest` as a candidate of `s :: rest`. -/
def shiftCand (c : Cand) : Cand :=
  match c.path with
  | [] => { c with stmtIdx := c.stmtIdx + 1 }
  | st :: ps => { c with path := bumpStep st :: ps }

/-- Re-address a candidate of a nested body as a candidate of the list
whose head statement owns that body. -/
def underStep (st : Step) (c : Cand) : Cand :=
  { c with path := st :: c.path }

/-- Collect the matching declarators of one declaration, left to right. -/
def candsOfDecls (pred : Declarator → Bool) (j : Nat) : List Declarator → List Cand
  | [] => []
  | d :: r =>
      (if pred d then [⟨[], 0, j, d⟩] else []) ++ candsOfDecls pred (j + 1) r

mutual

/-- Candidates found inside one statement (addresses relative to a list in
which this statement sits at index 0). -/
def findInStmt (pred : Declarator → Bool) : Stmt → List Cand
  | .varDecl _ ds => candsOfDecls pred 0 ds
  | .exprStmt _ _ => []
  | .ifStmt _ c a =>
      (findIn pred c).map (underStep (.intoCons 0)) ++
        (match a with
         | some b => (findIn pred b).map (underStep (.intoAlt 0))
         | none => [])
  | .block b => (findIn pred b).map (underStep (.intoBlock 0))
  | .funcDecl _ _ b => (findIn pred b).map (underStep (.intoFunc 0))
  | .importDecl _ _ => []
  | .exportDefault _ _ => []

/-- Pre-order (document order) collection of matching declarator paths over
a statement list, as jscodeshift's `find` traverses. -/
def findIn (pred : Declarator → Bool) : List Stmt → List Cand
  | [] => []
  | s :: r => findInStmt pred s ++ (findIn pred r).map shiftCand

end

/-- Embedding of `getImportDeclaratorPaths`: the default-require declarator paths
followed by the member-access declarator paths, each list in document
order — `[...defaultImports.paths(), ...namedImports.paths()]`. -/
def getImportDeclaratorPaths (b : List Stmt) : List Cand :=
  findIn declMatchesDefault b ++ findIn declMatchesNamed b

/-- Look up the statement list at a given address. -/
def bodyAt (b : List Stmt) : List Step → Option (List Stmt)
  | [] => some b
  | st :: ps =>
      match st with
      | .intoBlock j =>
          match b[j]? with
          | some (.block bb) => bodyAt bb ps
          | _ => none
      | .intoFunc j =>
          match b[j]? with
          | some (.funcDecl _ _ bb) => bodyAt bb ps
          | _ => none
      | .intoCons j =>
          match b[j]? with
          | some (.ifStmt _ cc _) => bodyAt cc ps
          | _ => none
      | .intoAlt j =>
          match b[j]? with
          | some (.ifStmt _ _ (some aa)) => bodyAt aa ps
          | _ => none

/-- Rewrite the statement list at a given address with `f`; an address not
present in the tree leaves the program unchanged (the transformer only uses
addresses produced by `findIn`, which are always present). -/
def modifyAt (b : List Stmt) (f : List Stmt → List Stmt) : List Step → List Stmt
  | [] => f b
  | st :: ps =>
      match st with
      | .intoBlock j =>
          match b[j]? with
          | some (.block bb) => b.set j (.block (modifyAt bb f ps))
          | _ => b
      | .intoFunc j =>
          match b[j]? with
          | some (.funcDecl n prm bb) => b.set j (.funcDecl n prm (modifyAt bb f ps))
          | _ => b
      | .intoCons j =>
          match b[j]? with
          | some (.ifStmt t cc a) => b.set j (.ifStmt t (modifyAt cc f ps) a)
          | _ => b
      | .intoAlt j =>
          match b[j]? with
          | some (.ifStmt t cc (some aa)) => b.set j (.ifStmt t cc (some (modifyAt aa f ps)))
          | _ => b

/-- Embedding of `jscodeshift(path.parent).insertAfter(stmt)`: splice `s` into the
statement list at `path`, immediately after position `i`. -/
def insertAfterLoc (b : List Stmt) (path : List Step) (i : Nat) (s : Stmt) : List Stmt :=
  modifyAt b (fun bb => bb.take (i + 1) ++ s :: bb.drop (i + 1)) path

/-- The companion import the transformer builds:
`import Layout from '@theme/Layout';`. -/
def companionImport : Stmt := .importDecl "Layout" "@theme/Layout"

/-- Recognize `module.exports = <identifier>` — the `AssignmentExpression`
pattern of the export `find` (`operator: '='`, left
`module`.`exports`, right an `Identifier`) — returning the exported
identifier. -/
def isExportAssign : Expr → Option String
  | .assign "=" (.member (.ident "module") (.ident "exports")) (.ident x) => some x
  | _ => none

/-- The replacement expression the export pass builds:
`(props) => <Layout><X {...props} /></Layout>` — a `Layout` element with
no attributes wrapping a self-closed `X` element spreading `props`. -/
def layoutWrap (x : String) : Expr :=
  .arrow ["props"] (.jsx "Layout" [] false [.jsx x [.ident "props"] true []])

mutual

/-- The export pass on one statement: an expression statement whose
expression is `module.exports = X` (the `parentPath.parentPath.name ===
'body'` filter admits exactly the statement-level occurrences inside any
statement-list array) is replaced in place by
`export default (props) => <Layout><X {...props} /></Layout>`, carrying the
original statement's comments; all other statements are kept, with the pass
reaching nested statement lists. -/
def exportStmt : Stmt → Stmt
  | .exprStmt e cs =>
      match isExportAssign e with
      | some x => .exportDefault (layoutWrap x) cs
      | none => .exprStmt e cs
  | .varDecl k ds => .varDecl k ds
  | .ifStmt t c a =>
      .ifStmt t (exportStmts c)
        (match a with
         | some b => some (exportStmts b)
         | none => none)
  | .block b => .block (exportStmts b)
  | .funcDecl n ps b => .funcDecl n ps (exportStmts b)
  | .importDecl l s => .importDecl l s
  | .exportDefault e cs => .exportDefault e cs

/-- The export pass over a statement list. -/
def exportStmts : List Stmt → List Stmt
  | [] => []
  | s :: r => exportStmt s :: exportStmts r

end

/-- First half of the transformer (source lines 116–132): collect the
declarator paths (`getImportDeclaratorPaths`), run the per-candidate
rewrites (each decision is local to its declarator, so the forEach over the
collected paths is the rewriting traversal `rewriteStmts`; the rewrites
replace only declarator nodes, so every collected address denotes the same
statement afterwards); if the collected list is non-empty
(`if (r[r.length - 1])`), insert the companion import immediately after the
statement containing its last element. -/
def importPhase (b : List Stmt) : List Stmt :=
  match (getImportDeclaratorPaths b).getLast? with
  | some c => insertAfterLoc (rewriteStmts b) c.path c.stmtIdx companionImport
  | none => rewriteStmts b

/-- The default export of transform.ts: the candidate rewrites and the
companion-import insertion, then the export-assignment pass. -/
def transformer (b : List Stmt) : List Stmt :=
  exportStmts (importPhase b)

mutual

/-- Number of copies of the companion import
(`import Layout from '@theme/Layout'`) inside one statement. -/
def ccStmt : Stmt → Nat
  | .varDecl _ _ => 0
  | .exprStmt _ _ => 0
  | .ifStmt _ c a =>
      ccStmts c +
        (match a with
         | some b => ccStmts b
         | none => 0)
  | .block b => ccStmts b
  | .funcDecl _ _ b => ccStmts b
  | .importDecl l s => if l = "Layout" && s = "@theme/Layout" then 1 else 0
  | .exportDefault _ _ => 0

/-- Number of copies of the companion import in a statement list. -/
def ccStmts : List Stmt → Nat
  | [] => 0
  | s :: r => ccStmt s + ccStmts r

end

/-- A declarator that matches neither collection filter (it is not a
Binding Candidate). -/
def declNotCand (d : Declarator) : Bool :=
  !(declMatchesDefault d || declMatchesNamed d)

mutual

/-- No declarator inside this statement is a Binding Candidate. -/
def candFreeStmt : Stmt → Bool
  | .varDecl _ ds => ds.all declNotCand
  | .exprStmt _ _ => true
  | .ifStmt _ c a =>
      candFreeStmts c &&
        (match a with
         | some b => candFreeStmts b
         | none => true)
  | .block b => candFreeStmts b
  | .funcDecl _ _ b => candFreeStmts b
  | .importDecl _ _ => true
  | .exportDefault _ _ => true

/-- No declarator in this statement list is a Binding Candidate. -/
def candFreeStmts : List Stmt → Bool
  | [] => true
  | s :: r => candFreeStmt s && candFreeStmts r

end

/-- A Binding Candidate declarator whose classification is not a no-op
(non-candidates count as vacuously rewritten). -/
def declRewritten (d : Declarator) : Bool :=
  match d.init with
  | some (.call (.ident "require") args) =>
      !(classifyCallArg args.head? == .noop)
  | some (.member (.call (.ident "require") args) _) =>
      !(classifyMemberArg args.head? == .noop)
  | _ => true

mutual

/-- Every Binding Candidate inside this statement classifies to a rewrite
(no no-op decisions). -/
def noNoopStmt : Stmt → Bool
  | .varDecl _ ds => ds.all declRewritten
  | .exprStmt _ _ => true
  | .ifStmt _ c a =>
      noNoopStmts c &&
        (match a with
         | some b => noNoopStmts b
         | none => true)
  | .block b => noNoopStmts b
  | .funcDecl _ _ b => noNoopStmts b
  | .importDecl _ _ => true
  | .exportDefault _ _ => true

/-- Every Binding Candidate in this statement list classifies to a
rewrite. -/
def noNoopStmts : List Stmt → Bool
  | [] => true
  | s :: r => noNoopStmt s && noNoopStmts r

end

mutual

/-- This statement contains no Export Assignment Candidate: no expression
statement whose expression is `module.exports = <identifier>` sits in any
statement list inside it. -/
def exportFreeStmt : Stmt → Bool
  | .varDecl _ _ => true
  | .exprStmt e _ => (isExportAssign e).isNone
  | .ifStmt _ c a =>
      exportFreeStmts c &&
        (match a with
         | some b => exportFreeStmts b
         | none => true)
  | .block b => exportFreeStmts b
  | .funcDecl _ _ b => exportFreeStmts b
  | .importDecl _ _ => true
  | .exportDefault _ _ => true

/-- No Export Assignment Candidate occurs in this statement list. -/
def exportFreeStmts : List Stmt → Bool
  | [] => true
  | s :: r => exportFreeStmt s && exportFreeStmts r

end

/-- A declarator does not bind the name `Layout`. -/
def declNotLayout (d : Declarator) : Bool :=
  !(d.id = "Layout")

mutual

/-- This statement declares no binding named `Layout` (no import with local
name `Layout`, no variable declarator for `Layout`, no function declaration
named `Layout`). -/
def layoutFreeStmt : Stmt → Bool
  | .varDecl _ ds => ds.all declNotLayout
  | .exprStmt _ _ => true
  | .ifStmt _ c a =>
      layoutFreeStmts c &&
        (match a with
         | some b => layoutFreeStmts b
         | none => true)
  | .block b => layoutFreeStmts b
  | .funcDecl n _ b => !(n = "Layout") && layoutFreeStmts b
  | .importDecl l _ => !(l = "Layout")
  | .exportDefault _ _ => true

/-- No statement in this list declares a binding named `Layout`. -/
def layoutFreeStmts : List Stmt → Bool
  | [] => true
  | s :: r => layoutFreeStmt s && layoutFreeStmts r

end

/-!
Node-identity model for the stub builders.  jscodeshift builder calls
allocate fresh AST node objects; `empty()` is invoked once per stub, so the
three stub functions of the CompLibrary object literal are three distinct
node instances sharing no subnode.  We model allocation with an explicit
counter: every built node carries the id it was allocated at, and each
builder call consumes fresh ids.
-/

/-- Expression nodes annotated with the id of their allocation. -/
inductive AExpr where
  | ident (id : Nat) (name : String)
  | objE (id : Nat) (props : List (String × AExpr))
  | arrow (id : Nat) (params : List String) (body : AExpr)
  | jsx (id : Nat) (tag : String) (spreads : List AExpr) (selfClosing : Bool) (children : List AExpr)

/-- One `empty()` call starting from counter `n`: the spread identifier,
the JSX element and the arrow function are allocated in order; the call
consumes three ids and returns the next counter. -/
def emptyAlloc (n : Nat) : AExpr × Nat :=
  (.arrow (n + 2) ["props"] (.jsx (n + 1) "div" [.ident n "props"] false []), n + 3)

/-- The object-literal construction of the three-stub rewrite:
`empty()` is called once per property, then the object node is
allocated. -/
def threeStubAlloc (n : Nat) : AExpr × Nat :=
  let c := emptyAlloc n
  let g := emptyAlloc c.2
  let m := emptyAlloc g.2
  (.objE m.2 [("Container", c.1), ("GridBlock", g.1), ("MarkdownBlock", m.1)], m.2 + 1)

mutual

/-- All node ids appearing in an annotated expression. -/
def idsA : AExpr → List Nat
  | .ident i _ => [i]
  | .objE i ps => i :: idsProps ps
  | .arrow i _ b => i :: idsA b
  | .jsx i _ sp _ ch => i :: (idsList sp ++ idsList ch)

/-- All node ids in a list of annotated expressions. -/
def idsList : List AExpr → List Nat
  | [] => []
  | e :: r => idsA e ++ idsList r

/-- All node ids in an annotated property list. -/
def idsProps : List (String × AExpr) → List Nat
  | [] => []
  | (_, e) :: r => idsA e ++ idsProps r

end

mutual

/-- Forget the allocation ids. -/
def stripA : AExpr → Expr
  | .ident _ n => .ident n
  | .objE _ ps => .objE (stripProps ps)
  | .arrow _ p b => .arrow p (stripA b)
  | .jsx _ t sp sc ch => .jsx t (stripList sp) sc (stripList ch)

/-- Forget the allocation ids in a list. -/
def stripList : List AExpr → List Expr
  | [] => []
  | e :: r => stripA e :: stripList r

/-- Forget the allocation ids in a property list. -/
def stripProps : List (String × AExpr) → List (String × Expr)
  | [] => []
  | (k, e) :: r => (k, stripA e) :: stripProps r

end

/-! ## Structural lemmas about the passes -/

theorem rewriteStmts_eq_map (l : List Stmt) : rewriteStmts l = l.map rewriteStmt := by
  induction l with
  | nil => rfl
  | cons s r ih => simp [rewriteStmts, ih]

theorem exportStmts_eq_map (l : List Stmt) : exportStmts l = l.map exportStmt := by
  induction l with
  | nil => rfl
  | cons s r ih => simp [exportStmts, ih]

theorem getElem?_rewriteStmts (l : List Stmt) (j : Nat) :
    (rewriteStmts l)[j]? = (l[j]?).map rewriteStmt := by
  rw [rewriteStmts_eq_map, List.getElem?_map]

theorem getElem?_exportStmts (l : List Stmt) (j : Nat) :
    (exportStmts l)[j]? = (l[j]?).map exportStmt := by
  rw [exportStmts_eq_map, List.getElem?_map]

theorem bodyAt_rewriteStmts (ps : List Step) :
    ∀ b, bodyAt (rewriteStmts b) ps = (bodyAt b ps).map rewriteStmts := by
  induction ps with
  | nil => intro b; rfl
  | cons st ps ih =>
      intro b
      cases st with
      | intoBlock j =>
          simp only [bodyAt, getElem?_rewriteStmts]
          cases h : b[j]? with
          | none => rfl
          | some s => cases s <;> simp [rewriteStmt, ih]
      | intoFunc j =>
          simp only [bodyAt, getElem?_rewriteStmts]
          cases h : b[j]? with
          | none => rfl
          | some s => cases s <;> simp [rewriteStmt, ih]
      | intoCons j =>
          simp only [bodyAt, getElem?_rewriteStmts]
          cases h : b[j]? with
          | none => rfl
          | some s => cases s <;> simp [rewriteStmt, ih]
      | intoAlt j =>
          simp only [bodyAt, getElem?_rewriteStmts]
          cases h : b[j]? with
          | none => rfl
          | some s =>
              cases s with
              | ifStmt t c a => cases a <;> simp [rewriteStmt, ih]
              | _ => simp [rewriteStmt]

theorem bodyAt_exportStmts (ps : List Step) :
    ∀ b, bodyAt (exportStmts b) ps = (bodyAt b ps).map exportStmts := by
  induction ps with
  | nil => intro b; rfl
  | cons st ps ih =>
      intro b
      cases st with
      | intoBlock j =>
          simp only [bodyAt, getElem?_exportStmts]
          cases h : b[j]? with
          | none => rfl
          | some s =>
              cases s with
              | exprStmt e cs => cases he : isExportAssign e <;> simp [exportStmt, he]
              | _ => simp [exportStmt, ih]
      | intoFunc j =>
          simp only [bodyAt, getElem?_exportStmts]
          cases h : b[j]? with
          | none => rfl
          | some s =>
              cases s with
              | exprStmt e cs => cases he : isExportAssign e <;> simp [exportStmt, he]
              | _ => simp [exportStmt, ih]
      | intoCons j =>
          simp only [bodyAt, getElem?_exportStmts]
          cases h : b[j]? with
          | none => rfl
          | some s =>
              cases s with
              | exprStmt e cs => cases he : isExportAssign e <;> simp [exportStmt, he]
              | _ => simp [exportStmt, ih]
      | intoAlt j =>
          simp only [bodyAt, getElem?_exportStmts]
          cases h : b[j]? with
          | none => rfl
          | some s =>
              cases s with
              | exprStmt e cs => cases he : isExportAssign e <;> simp [exportStmt, he]
              | ifStmt t c a => cases a <;> simp [exportStmt, ih]
              | _ => simp [exportStmt]

/-- Look up the declarator at a statement-list address, statement index and
declarator index. -/
def declAt (b : List Stmt) (path : List Step) (i j : Nat) : Option Declarator :=
  match bodyAt b path with
  | some B =>
      match B[i]? with
      | some (.varDecl _ ds) => ds[j]?
      | _ => none
  | none => none

theorem declAt_rewriteStmts (b : List Stmt) (path : List Step) (i j : Nat) :
    declAt (rewriteStmts b) path i j = (declAt b path i j).map rewriteDeclarator := by
  unfold declAt
  rw [bodyAt_rewriteStmts]
  cases h : bodyAt b path with
  | none => rfl
  | some B =>
      simp only [Option.map_some']
      rw [getElem?_rewriteStmts]
      cases hB : B[i]? with
      | none => simp
      | some s => cases s <;> simp [rewriteStmt, List.getElem?_map]

/-! ## Concrete documents used as counterexamples and witnesses -/

/-- A document with a member-access candidate (statement 0) followed by a
direct-call candidate (statement 1); both classify as no-ops. -/
def progMixedOrder : List Stmt :=
  [.varDecl "var" [⟨"a", some (.member (.call (.ident "require") [.str "x"]) (.ident "y"))⟩],
   .varDecl "var" [⟨"b", some (.call (.ident "require") [.str "z"])⟩]]

/-- A document whose only `module.exports = Foo` assignment sits inside a
function body, not at top level. -/
def progNestedExport : List Stmt :=
  [.funcDecl "f" []
    [.exprStmt (.assign "=" (.member (.ident "module") (.ident "exports")) (.ident "Foo")) []]]

/-- A document with a single no-op binding candidate
(`var x = require('foo')`). -/
def progNoopCandidate : List Stmt :=
  [.varDecl "var" [⟨"x", some (.call (.ident "require") [.str "foo"])⟩]]

/-- A document whose only statement is a top-level
`module.exports = Foo;` carrying one comment. -/
def progExportOnly : List Stmt :=
  [.exprStmt (.assign "=" (.member (.ident "module") (.ident "exports")) (.ident "Foo")) ["lead"]]

/-! ## Claim theorems -/

/-- C1 counterexample: on `progMixedOrder` the candidate list in document
order ends with the direct-call candidate in statement 1 (the only
default-require path, collected at statement index 1, comes before the only
member-access path, collected at statement index 0, in the concatenation the
code builds), yet the companion import is inserted after statement 0 — not
immediately after the statement containing the last candidate in document
order, which sits at index 2 of the output with nothing after it. -/
theorem C1_counterexample :
    (findIn declMatchesDefault progMixedOrder).map (fun c => c.stmtIdx) = [1] ∧
    (findIn declMatchesNamed progMixedOrder).map (fun c => c.stmtIdx) = [0] ∧
    (getImportDeclaratorPaths progMixedOrder).getLast?.map (fun c => c.stmtIdx) = some 0 ∧
    transformer progMixedOrder =
      [.varDecl "var" [⟨"a", some (.member (.call (.ident "require") [.str "x"]) (.ident "y"))⟩],
       companionImport,
       .varDecl "var" [⟨"b", some (.call (.ident "require") [.str "z"])⟩]] ∧
    (transformer progMixedOrder)[2]? =
      some (.varDecl "var" [⟨"b", some (.call (.ident "require") [.str "z"])⟩]) ∧
    (transformer progMixedOrder)[2]? ≠ some companionImport ∧
    (transformer progMixedOrder)[3]? = none := by
  refine ⟨rfl, rfl, rfl, rfl, rfl, ?_, rfl⟩
  rw [show (transformer progMixedOrder)[2]? =
        some (.varDecl "var" [⟨"b", some (.call (.ident "require") [.str "z"])⟩]) from rfl]
  simp [companionImport]

/-- C2 counterexample: a `module.exports = Foo` assignment nested inside a
function body is rewritten by the transform (the `parentPath.parentPath.name
=== 'body'` filter also accepts statements of nested bodies), contradicting
the claim that such nested occurrences are left unchanged. -/
theorem C2_counterexample :
    transformer progNestedExport =
      [.funcDecl "f" []
        [.exportDefault
          (.arrow ["props"] (.jsx "Layout" [] false [.jsx "Foo" [.ident "props"] true []])) []]] ∧
    transformer progNestedExport ≠ progNestedExport := by
  refine ⟨rfl, ?_⟩
  rw [show transformer progNestedExport =
        [.funcDecl "f" []
          [.exportDefault
            (.arrow ["props"] (.jsx "Layout" [] false [.jsx "Foo" [.ident "props"] true []])) []]]
      from rfl]
  simp [progNestedExport]

/-- C7 counterexample: a no-op candidate survives the transform, so the
output of a successful transform still contains one Binding Candidate, and
a second pass inserts a second companion import (a structural change). -/
theorem C7_counterexample :
    (getImportDeclaratorPaths (transformer progNoopCandidate)).length = 1 ∧
    ccStmts (transformer progNoopCandidate) = 1 ∧
    transformer (transformer progNoopCandidate) =
      [.varDecl "var" [⟨"x", some (.call (.ident "require") [.str "foo"])⟩],
       companionImport, companionImport] ∧
    ccStmts (transformer (transformer progNoopCandidate)) = 2 :=
  ⟨rfl, rfl, rfl, rfl⟩

/-- C3: a `module.exports = Foo;` expression statement present (at index
`i`) after the import phase is replaced in place — same index — by
`export default (props) => <Layout><Foo {...props} /></Layout>`: a default
export of a single-parameter arrow function returning a `Layout` element
whose only child is a self-closed `Foo` element spreading the parameter;
the comments of the original statement are carried onto the replacement. -/
theorem C3_export_rewrite (b : List Stmt) (i : Nat) (x : String) (cs : List String)
    (h : (importPhase b)[i]? =
      some (.exprStmt (.assign "=" (.member (.ident "module") (.ident "exports")) (.ident x)) cs)) :
    (transformer b)[i]? =
      some (.exportDefault
        (.arrow ["props"] (.jsx "Layout" [] false [.jsx x [.ident "props"] true []])) cs) := by
  unfold transformer
  rw [getElem?_exportStmts, h]
  rfl

/-- C3 witness: the concrete one-statement document `module.exports = Foo;`
with a leading comment. -/
theorem C3_export_rewrite_witness :
    (importPhase progExportOnly)[0]? =
      some (.exprStmt (.assign "=" (.member (.ident "module") (.ident "exports")) (.ident "Foo"))
        ["lead"]) ∧
    (transformer progExportOnly)[0]? =
      some (.exportDefault
        (.arrow ["props"] (.jsx "Layout" [] false [.jsx "Foo" [.ident "props"] true []]))
        ["lead"]) :=
  ⟨rfl, C3_export_rewrite progExportOnly 0 "Foo" ["lead"] rfl⟩

/-- C8: a module-load call whose first argument is a number literal, a bare
identifier, or absent classifies as a no-op in both the direct-call and
member-access paths, and the declarator is left untouched.  The embedded
classifier and rewriter are total functions, so no error is possible. -/
theorem C8_unknown_argument_safety :
    ∀ (n : Int) (name dId : String) (rest : List Expr) (prop : Expr),
      classifyCallArg (some (.num n)) = .noop ∧
      classifyCallArg (some (.ident name)) = .noop ∧
      classifyCallArg none = .noop ∧
      classifyMemberArg (some (.num n)) = .noop ∧
      classifyMemberArg (some (.ident name)) = .noop ∧
      classifyMemberArg none = .noop ∧
      rewriteDeclarator ⟨dId, some (.call (.ident "require") (.num n :: rest))⟩ =
        ⟨dId, some (.call (.ident "require") (.num n :: rest))⟩ ∧
      rewriteDeclarator ⟨dId, some (.call (.ident "require") (.ident name :: rest))⟩ =
        ⟨dId, some (.call (.ident "require") (.ident name :: rest))⟩ ∧
      rewriteDeclarator ⟨dId, some (.call (.ident "require") [])⟩ =
        ⟨dId, some (.call (.ident "require") [])⟩ ∧
      rewriteDeclarator ⟨dId, some (.member (.call (.ident "require") (.num n :: rest)) prop)⟩ =
        ⟨dId, some (.member (.call (.ident "require") (.num n :: rest)) prop)⟩ ∧
      rewriteDeclarator ⟨dId, some (.member (.call (.ident "require") (.ident name :: rest)) prop)⟩ =
        ⟨dId, some (.member (.call (.ident "require") (.ident name :: rest)) prop)⟩ ∧
      rewriteDeclarator ⟨dId, some (.member (.call (.ident "require") []) prop)⟩ =
        ⟨dId, some (.member (.call (.ident "require") []) prop)⟩ :=
  fun _ _ _ _ _ => ⟨rfl, rfl, rfl, rfl, rfl, rfl, rfl, rfl, rfl, rfl, rfl, rfl⟩

/-! ## Counting and splicing lemmas -/

theorem ccStmts_append (l1 l2 : List Stmt) :
    ccStmts (l1 ++ l2) = ccStmts l1 + ccStmts l2 := by
  induction l1 with
  | nil => simp [ccStmts]
  | cons s r ih => simp [ccStmts, ih]; omega

theorem ccStmts_set (b : List Stmt) :
    ∀ (j : Nat) (x st : Stmt), b[j]? = some st →
      ccStmts (b.set j x) + ccStmt st = ccStmts b + ccStmt x := by
  induction b with
  | nil => intro j x st h; simp at h
  | cons s r ih =>
      intro j x st h
      cases j with
      | zero =>
          simp only [List.getElem?_cons_zero, Option.some_inj] at h
          subst h
          simp [ccStmts]
          omega
      | succ j =>
          simp only [List.getElem?_cons_succ] at h
          have := ih j x st h
          simp [ccStmts]
          omega

theorem getElem?_set_self_of_lt {α : Type} (l : List α) :
    ∀ (j : Nat) (x : α), j < l.length → (l.set j x)[j]? = some x := by
  induction l with
  | nil => intro j x h; simp at h
  | cons s r ih =>
      intro j x h
      cases j with
      | zero => simp
      | succ j =>
          simp only [List.set_cons_succ, List.getElem?_cons_succ]
          exact ih j x (by simpa using h)

theorem bodyAt_modifyAt (ps : List Step) :
    ∀ (b : List Stmt) (f : List Stmt → List Stmt) (B : List Stmt),
      bodyAt b ps = some B → bodyAt (modifyAt b f ps) ps = some (f B) := by
  induction ps with
  | nil =>
      intro b f B h
      simp only [bodyAt, Option.some_inj] at h
      subst h
      rfl
  | cons st ps ih =>
      intro b f B h
      cases st with
      | intoBlock j =>
          simp only [bodyAt] at h
          cases hj : b[j]? with
          | none => rw [hj] at h; exact absurd h (by simp)
          | some s =>
              rw [hj] at h
              cases s with
              | block bb =>
                  have hlt : j < b.length := by
                    by_contra hge
                    rw [List.getElem?_eq_none (by omega)] at hj
                    exact absurd hj (by simp)
                  simp only [modifyAt, hj, bodyAt,
                    getElem?_set_self_of_lt b j _ hlt]
                  exact ih bb f B h
              | _ => exact absurd h (by simp)
      | intoFunc j =>
          simp only [bodyAt] at h
          cases hj : b[j]? with
          | none => rw [hj] at h; exact absurd h (by simp)
          | some s =>
              rw [hj] at h
              cases s with
              | funcDecl n prm bb =>
                  have hlt : j < b.length := by
                    by_contra hge
                    rw [List.getElem?_eq_none (by omega)] at hj
                    exact absurd hj (by simp)
                  simp only [modifyAt, hj, bodyAt,
                    getElem?_set_self_of_lt b j _ hlt]
                  exact ih bb f B h
              | _ => exact absurd h (by simp)
      | intoCons j =>
          simp only [bodyAt] at h
          cases hj : b[j]? with
          | none => rw [hj] at h; exact absurd h (by simp)
          | some s =>
              rw [hj] at h
              cases s with
              | ifStmt t cc a =>
                  have hlt : j < b.length := by
                    by_contra hge
                    rw [List.getElem?_eq_none (by omega)] at hj
                    exact absurd hj (by simp)
                  simp only [modifyAt, hj, bodyAt,
                    getElem?_set_self_of_lt b j _ hlt]
                  exact ih cc f B h
              | _ => exact absurd h (by simp)
      | intoAlt j =>
          simp only [bodyAt] at h
          cases hj : b[j]? with
          | none => rw [hj] at h; exact absurd h (by simp)
          | some s =>
              rw [hj] at h
              cases s with
              | ifStmt t cc a =>
                  cases a with
                  | none => exact absurd h (by simp)
                  | some aa =>
                      have hlt : j < b.length := by
                        by_contra hge
                        rw [List.getElem?_eq_none (by omega)] at hj
                        exact absurd hj (by simp)
                      simp only [modifyAt, hj, bodyAt,
                        getElem?_set_self_of_lt b j _ hlt]
                      exact ih aa f B h
              | _ => exact absurd h (by simp)

theorem ccStmts_modifyAt (ps : List Step) :
    ∀ (b : List Stmt) (f : List Stmt → List Stmt) (B : List Stmt),
      bodyAt b ps = some B →
      ccStmts (modifyAt b f ps) + ccStmts B = ccStmts b + ccStmts (f B) := by
  induction ps with
  | nil =>
      intro b f B h
      simp only [bodyAt, Option.some_inj] at h
      subst h
      simp [modifyAt]
      omega
  | cons st ps ih =>
      intro b f B h
      cases st with
      | intoBlock j =>
          simp only [bodyAt] at h
          cases hj : b[j]? with
          | none => rw [hj] at h; exact absurd h (by simp)
          | some s =>
              rw [hj] at h
              cases s with
              | block bb =>
                  simp only [modifyAt, hj]
                  have hset := ccStmts_set b j (.block (modifyAt bb f ps)) (.block bb) hj
                  have hrec := ih bb f B h
                  simp only [ccStmt] at hset
                  omega
              | _ => exact absurd h (by simp)
      | intoFunc j =>
          simp only [bodyAt] at h
          cases hj : b[j]? with
          | none => rw [hj] at h; exact absurd h (by simp)
          | some s =>
              rw [hj] at h
              cases s with
              | funcDecl n prm bb =>
                  simp only [modifyAt, hj]
                  have hset := ccStmts_set b j (.funcDecl n prm (modifyAt bb f ps)) (.funcDecl n prm bb) hj
                  have hrec := ih bb f B h
                  simp only [ccStmt] at hset
                  omega
              | _ => exact absurd h (by simp)
      | intoCons j =>
          simp only [bodyAt] at h
          cases hj : b[j]? with
          | none => rw [hj] at h; exact absurd h (by simp)
          | some s =>
              rw [hj] at h
              cases s with
              | ifStmt t cc a =>
                  simp only [modifyAt, hj]
                  have hset := ccStmts_set b j (.ifStmt t (modifyAt cc f ps) a) (.ifStmt t cc a) hj
                  have hrec := ih cc f B h
                  cases a with
                  | none => simp only [ccStmt] at hset; omega
                  | some aa => simp only [ccStmt] at hset; omega
              | _ => exact absurd h (by simp)
      | intoAlt j =>
          simp only [bodyAt] at h
          cases hj : b[j]? with
          | none => rw [hj] at h; exact absurd h (by simp)
          | some s =>
              rw [hj] at h
              cases s with
              | ifStmt t cc a =>
                  cases a with
                  | none => exact absurd h (by simp)
                  | some aa =>
                      simp only [modifyAt, hj]
                      have hset := ccStmts_set b j (.ifStmt t cc (some (modifyAt aa f ps))) (.ifStmt t cc (some aa)) hj
                      have hrec := ih aa f B h
                      simp only [ccStmt] at hset
                      omega
              | _ => exact absurd h (by simp)

/-! ## The passes preserve the companion-import count -/

mutual

theorem ccStmt_rewriteStmt : ∀ s : Stmt, ccStmt (rewriteStmt s) = ccStmt s
  | .varDecl _ _ => rfl
  | .exprStmt _ _ => rfl
  | .ifStmt t c a => by
      cases a with
      | none => simp [rewriteStmt, ccStmt, ccStmts_rewriteStmts c]
      | some bb => simp [rewriteStmt, ccStmt, ccStmts_rewriteStmts c, ccStmts_rewriteStmts bb]
  | .block bb => by simp [rewriteStmt, ccStmt, ccStmts_rewriteStmts bb]
  | .funcDecl _ _ bb => by simp [rewriteStmt, ccStmt, ccStmts_rewriteStmts bb]
  | .importDecl _ _ => rfl
  | .exportDefault _ _ => rfl

theorem ccStmts_rewriteStmts : ∀ l : List Stmt, ccStmts (rewriteStmts l) = ccStmts l
  | [] => rfl
  | s :: r => by simp [rewriteStmts, ccStmts, ccStmt_rewriteStmt s, ccStmts_rewriteStmts r]

end

mutual

theorem ccStmt_exportStmt : ∀ s : Stmt, ccStmt (exportStmt s) = ccStmt s
  | .varDecl _ _ => rfl
  | .exprStmt e cs => by
      cases he : isExportAssign e with
      | none => simp [exportStmt, he]
      | some x => simp [exportStmt, he, ccStmt]
  | .ifStmt t c a => by
      cases a with
      | none => simp [exportStmt, ccStmt, ccStmts_exportStmts c]
      | some bb => simp [exportStmt, ccStmt, ccStmts_exportStmts c, ccStmts_exportStmts bb]
  | .block bb => by simp [exportStmt, ccStmt, ccStmts_exportStmts bb]
  | .funcDecl _ _ bb => by simp [exportStmt, ccStmt, ccStmts_exportStmts bb]
  | .importDecl _ _ => rfl
  | .exportDefault _ _ => rfl

theorem ccStmts_exportStmts : ∀ l : List Stmt, ccStmts (exportStmts l) = ccStmts l
  | [] => rfl
  | s :: r => by simp [exportStmts, ccStmts, ccStmt_exportStmt s, ccStmts_exportStmts r]

end

/-! ## Soundness of the path collection -/

theorem bodyAt_cons_bump (s : Stmt) (r : List Stmt) (st : Step) (ps : List Step) :
    bodyAt (s :: r) (bumpStep st :: ps) = bodyAt r (st :: ps) := by
  cases st <;> simp [bodyAt, bumpStep]

theorem candsOfDecls_sound (pred : Declarator → Bool) :
    ∀ (ds : List Declarator) (j : Nat) (c : Cand), c ∈ candsOfDecls pred j ds →
      c.path = [] ∧ c.stmtIdx = 0 ∧ j ≤ c.declIdx ∧
      ds[c.declIdx - j]? = some c.decl ∧ pred c.decl = true := by
  intro ds
  induction ds with
  | nil => intro j c hc; simp [candsOfDecls] at hc
  | cons d r ih =>
      intro j c hc
      unfold candsOfDecls at hc
      rcases List.mem_append.mp hc with hl | hr
      · cases hp : pred d with
        | true =>
            rw [hp] at hl
            simp only [if_true, List.mem_singleton] at hl
            subst hl
            exact ⟨rfl, rfl, le_refl j, by simp, hp⟩
        | false =>
            rw [hp] at hl
            simp at hl
      · obtain ⟨h1, h2, h3, h4, h5⟩ := ih (j + 1) c hr
        refine ⟨h1, h2, by omega, ?_, h5⟩
        have hidx : c.declIdx - j = (c.declIdx - (j + 1)) + 1 := by omega
        rw [hidx, List.getElem?_cons_succ]
        exact h4

mutual

theorem findInStmt_sound (pred : Declarator → Bool) :
    ∀ (s : Stmt) (c : Cand), c ∈ findInStmt pred s →
      ∀ r : List Stmt, ∃ B k ds, bodyAt (s :: r) c.path = some B ∧
        B[c.stmtIdx]? = some (.varDecl k ds) ∧
        ds[c.declIdx]? = some c.decl ∧ pred c.decl = true
  | .varDecl k ds, c, hc => by
      intro r
      simp only [findInStmt] at hc
      obtain ⟨h1, h2, _, h4, h5⟩ := candsOfDecls_sound pred ds 0 c hc
      refine ⟨.varDecl k ds :: r, k, ds, ?_, ?_, ?_, h5⟩
      · rw [h1]; rfl
      · rw [h2]; simp
      · simpa using h4
  | .exprStmt e cs, c, hc => by simp [findInStmt] at hc
  | .ifStmt t cns none, c, hc => by
      intro r
      simp only [findInStmt, List.append_nil] at hc
      obtain ⟨c', hc', hceq⟩ := List.mem_map.mp hc
      obtain ⟨B, k, ds, h1, h2, h3, h4⟩ := findIn_sound pred cns c' hc'
      subst hceq
      exact ⟨B, k, ds, by simpa [underStep, bodyAt] using h1,
        by simpa [underStep] using h2, by simpa [underStep] using h3, h4⟩
  | .ifStmt t cns (some aa), c, hc => by
      intro r
      simp only [findInStmt] at hc
      rcases List.mem_append.mp hc with hl | hr
      · obtain ⟨c', hc', hceq⟩ := List.mem_map.mp hl
        obtain ⟨B, k, ds, h1, h2, h3, h4⟩ := findIn_sound pred cns c' hc'
        subst hceq
        exact ⟨B, k, ds, by simpa [underStep, bodyAt] using h1,
          by simpa [underStep] using h2, by simpa [underStep] using h3, h4⟩
      · obtain ⟨c', hc', hceq⟩ := List.mem_map.mp hr
        obtain ⟨B, k, ds, h1, h2, h3, h4⟩ := findIn_sound pred aa c' hc'
        subst hceq
        exact ⟨B, k, ds, by simpa [underStep, bodyAt] using h1,
          by simpa [underStep] using h2, by simpa [underStep] using h3, h4⟩
  | .block bb, c, hc => by
      intro r
      simp only [findInStmt] at hc
      obtain ⟨c', hc', hceq⟩ := List.mem_map.mp hc
      obtain ⟨B, k, ds, h1, h2, h3, h4⟩ := findIn_sound pred bb c' hc'
      subst hceq
      exact ⟨B, k, ds, by simpa [underStep, bodyAt] using h1,
        by simpa [underStep] using h2, by simpa [underStep] using h3, h4⟩
  | .funcDecl n prm bb, c, hc => by
      intro r
      simp only [findInStmt] at hc
      obtain ⟨c', hc', hceq⟩ := List.mem_map.mp hc
      obtain ⟨B, k, ds, h1, h2, h3, h4⟩ := findIn_sound pred bb c' hc'
      subst hceq
      exact ⟨B, k, ds, by simpa [underStep, bodyAt] using h1,
        by simpa [underStep] using h2, by simpa [underStep] using h3, h4⟩
  | .importDecl l src, c, hc => by simp [findInStmt] at hc
  | .exportDefault e cs, c, hc => by simp [findInStmt] at hc
termination_by s _ _ => sizeOf s

theorem findIn_sound (pred : Declarator → Bool) :
    ∀ (b : List Stmt) (c : Cand), c ∈ findIn pred b →
      ∃ B k ds, bodyAt b c.path = some B ∧
        B[c.stmtIdx]? = some (.varDecl k ds) ∧
        ds[c.declIdx]? = some c.decl ∧ pred c.decl = true
  | [], c, hc => by simp [findIn] at hc
  | s :: r, c, hc => by
      simp only [findIn] at hc
      rcases List.mem_append.mp hc with hl | hr
      · exact findInStmt_sound pred s c hl r
      · obtain ⟨c', hc', hceq⟩ := List.mem_map.mp hr
        obtain ⟨cp, ci, cj, cd⟩ := c'
        obtain ⟨B, k, ds, h1, h2, h3, h4⟩ := findIn_sound pred r ⟨cp, ci, cj, cd⟩ hc'
        cases cp with
        | nil =>
            subst hceq
            refine ⟨s :: r, k, ds, by simp [shiftCand, bodyAt], ?_, ?_, h4⟩
            · simp only [bodyAt, Option.some_inj] at h1
              subst h1
              simpa [shiftCand] using h2
            · simpa [shiftCand] using h3
        | cons st ps =>
            subst hceq
            refine ⟨B, k, ds, ?_, ?_, ?_, h4⟩
            · simp only [shiftCand]
              rw [bodyAt_cons_bump]
              exact h1
            · simpa [shiftCand] using h2
            · simpa [shiftCand] using h3
termination_by b _ _ => sizeOf b

end

/-- C1 (amended): when the collected candidate list — all direct-call
candidates in document order followed by all member-access candidates in
document order — is non-empty, the transform inserts exactly one companion
statement (the companion-import count grows by exactly one), positioned
immediately after the statement containing the *last collected* candidate
`c`: in the output, the statement list at `c`'s address holds the
(rewritten, export-processed) image of `c`'s statement at `c.stmtIdx` and
the companion import at `c.stmtIdx + 1`.  This happens regardless of the
candidate's decision (no decision hypothesis appears).  When the candidate
list is empty, the companion-import count is unchanged.  The original
claim's "last candidate in document order" is refuted by
`C1_counterexample`: the collected order is document order only within each
of the two sublists. -/
theorem C1_amended_companion_insertion (b : List Stmt) :
    (∀ c, (getImportDeclaratorPaths b).getLast? = some c →
      ccStmts (transformer b) = ccStmts b + 1 ∧
      ∃ B0 k ds B', bodyAt b c.path = some B0 ∧
        B0[c.stmtIdx]? = some (.varDecl k ds) ∧
        ds[c.declIdx]? = some c.decl ∧
        bodyAt (transformer b) c.path = some B' ∧
        B'[c.stmtIdx]? = some (exportStmt (rewriteStmt (.varDecl k ds))) ∧
        B'[c.stmtIdx + 1]? = some companionImport) ∧
    (getImportDeclaratorPaths b = [] → ccStmts (transformer b) = ccStmts b) := by
  constructor
  · intro c hlast
    have hmem : c ∈ getImportDeclaratorPaths b := List.mem_of_mem_getLast? hlast
    have hval : ∃ B0 k ds, bodyAt b c.path = some B0 ∧
        B0[c.stmtIdx]? = some (.varDecl k ds) ∧ ds[c.declIdx]? = some c.decl := by
      unfold getImportDeclaratorPaths at hmem
      rcases List.mem_append.mp hmem with h | h
      · obtain ⟨B0, k, ds, h1, h2, h3, _⟩ := findIn_sound declMatchesDefault b c h
        exact ⟨B0, k, ds, h1, h2, h3⟩
      · obtain ⟨B0, k, ds, h1, h2, h3, _⟩ := findIn_sound declMatchesNamed b c h
        exact ⟨B0, k, ds, h1, h2, h3⟩
    obtain ⟨B0, k, ds, h1, h2, h3⟩ := hval
    have hphase : importPhase b =
        insertAfterLoc (rewriteStmts b) c.path c.stmtIdx companionImport := by
      unfold importPhase
      rw [hlast]
    have hB1 : bodyAt (rewriteStmts b) c.path = some (rewriteStmts B0) := by
      rw [bodyAt_rewriteStmts, h1]
      rfl
    have hB1get : (rewriteStmts B0)[c.stmtIdx]? = some (rewriteStmt (.varDecl k ds)) := by
      rw [getElem?_rewriteStmts, h2]
      rfl
    have hlen0 : c.stmtIdx < B0.length := by
      by_contra hge
      rw [List.getElem?_eq_none (by omega)] at h2
      exact absurd h2 (by simp)
    have hlen : c.stmtIdx < (rewriteStmts B0).length := by
      rw [rewriteStmts_eq_map, List.length_map]
      exact hlen0
    set L := (rewriteStmts B0).take (c.stmtIdx + 1) ++
      companionImport :: (rewriteStmts B0).drop (c.stmtIdx + 1) with hL
    have hmod : bodyAt (importPhase b) c.path = some L := by
      rw [hphase]
      exact bodyAt_modifyAt c.path (rewriteStmts b) _ (rewriteStmts B0) hB1
    have htklen : ((rewriteStmts B0).take (c.stmtIdx + 1)).length = c.stmtIdx + 1 := by
      rw [List.length_take]
      omega
    have hgetIdx : L[c.stmtIdx]? = some (rewriteStmt (.varDecl k ds)) := by
      rw [hL, List.getElem?_append, if_pos (by omega : c.stmtIdx <
        ((rewriteStmts B0).take (c.stmtIdx + 1)).length)]
      rw [List.getElem?_take, if_pos (Nat.lt_succ_self _)]
      exact hB1get
    have hgetSucc : L[c.stmtIdx + 1]? = some companionImport := by
      rw [hL, List.getElem?_append, htklen]
      simp
    have htrans : bodyAt (transformer b) c.path = some (exportStmts L) := by
      unfold transformer
      rw [bodyAt_exportStmts, hmod]
      rfl
    refine ⟨?_, B0, k, ds, exportStmts L, h1, h2, h3, htrans, ?_, ?_⟩
    · have hmodcc := ccStmts_modifyAt c.path (rewriteStmts b)
        (fun bb => bb.take (c.stmtIdx + 1) ++ companionImport :: bb.drop (c.stmtIdx + 1))
        (rewriteStmts B0) hB1
      have hccL : ccStmts L = ccStmts (rewriteStmts B0) + 1 := by
        rw [hL, ccStmts_append]
        have hcons : ccStmts (companionImport :: (rewriteStmts B0).drop (c.stmtIdx + 1)) =
            1 + ccStmts ((rewriteStmts B0).drop (c.stmtIdx + 1)) := by
          simp [ccStmts, ccStmt, companionImport]
        rw [hcons]
        have hsplit : ccStmts ((rewriteStmts B0).take (c.stmtIdx + 1)) +
            ccStmts ((rewriteStmts B0).drop (c.stmtIdx + 1)) = ccStmts (rewriteStmts B0) := by
          rw [← ccStmts_append, List.take_append_drop]
        omega
      unfold transformer
      rw [ccStmts_exportStmts, hphase]
      unfold insertAfterLoc
      simp only [] at hmodcc
      rw [← hL] at hmodcc
      have hrw : ccStmts (rewriteStmts b) = ccStmts b := ccStmts_rewriteStmts b
      omega
    · rw [getElem?_exportStmts, hgetIdx]
      rfl
    · rw [getElem?_exportStmts, hgetSucc]
      rfl
  · intro hempty
    have hphase : importPhase b = rewriteStmts b := by
      unfold importPhase
      rw [hempty]
      rfl
    unfold transformer
    rw [hphase, ccStmts_exportStmts, ccStmts_rewriteStmts]

/-- C1 witness: on `progMixedOrder` the last collected candidate is the
member-access declarator of statement 0, and the transform adds exactly one
companion import. -/
theorem C1_amended_companion_insertion_witness :
    (getImportDeclaratorPaths progMixedOrder).getLast? =
      some ⟨[], 0, 0, ⟨"a", some (.member (.call (.ident "require") [.str "x"]) (.ident "y"))⟩⟩ ∧
    ccStmts (transformer progMixedOrder) = ccStmts progMixedOrder + 1 :=
  ⟨rfl,
    ((C1_amended_companion_insertion progMixedOrder).1
      ⟨[], 0, 0, ⟨"a", some (.member (.call (.ident "require") [.str "x"]) (.ident "y"))⟩⟩
      rfl).1⟩

/-- C2 (amended): the export filter accepts exactly the statement-level
occurrences: a `module.exports = <identifier>` assignment that is the
direct expression of an expression statement in *any* statement list of the
document — top level or nested inside a function body, block or braced
conditional branch — is rewritten in place to the default-export
declaration, while an expression statement whose expression is not exactly
such an assignment (for example one that merely contains it inside a larger
expression) is left unchanged. -/
theorem C2_amended_body_filter (b : List Stmt) (path : List Step) (B : List Stmt)
    (i : Nat) (e : Expr) (cs : List String)
    (h1 : bodyAt (importPhase b) path = some B)
    (h2 : B[i]? = some (.exprStmt e cs)) :
    (∀ x, isExportAssign e = some x →
      ∃ B', bodyAt (transformer b) path = some B' ∧
        B'[i]? = some (.exportDefault (layoutWrap x) cs)) ∧
    (isExportAssign e = none →
      ∃ B', bodyAt (transformer b) path = some B' ∧
        B'[i]? = some (.exprStmt e cs)) := by
  have htrans : bodyAt (transformer b) path = some (exportStmts B) := by
    unfold transformer
    rw [bodyAt_exportStmts, h1]
    rfl
  constructor
  · intro x hx
    refine ⟨exportStmts B, htrans, ?_⟩
    rw [getElem?_exportStmts, h2]
    simp [exportStmt, hx]
  · intro hx
    refine ⟨exportStmts B, htrans, ?_⟩
    rw [getElem?_exportStmts, h2]
    simp [exportStmt, hx]

/-- C2 witness: inside the function body of `progNestedExport`, the nested
`module.exports = Foo` statement is rewritten to the export declaration. -/
theorem C2_amended_body_filter_witness :
    bodyAt (importPhase progNestedExport) [.intoFunc 0] =
      some [.exprStmt (.assign "=" (.member (.ident "module") (.ident "exports")) (.ident "Foo")) []] ∧
    (∃ B', bodyAt (transformer progNestedExport) [.intoFunc 0] = some B' ∧
      B'[0]? = some (.exportDefault (layoutWrap "Foo") [])) :=
  ⟨rfl,
    (C2_amended_body_filter progNestedExport [.intoFunc 0]
      [.exprStmt (.assign "=" (.member (.ident "module") (.ident "exports")) (.ident "Foo")) []]
      0 (.assign "=" (.member (.ident "module") (.ident "exports")) (.ident "Foo")) []
      rfl rfl).1 "Foo" rfl⟩

/-- C4: a direct `require` call whose first argument is a string literal
containing `'../../core/CompLibrary'` rebinds the same identifier to an
object literal with exactly the property names `Container`, `GridBlock`
and `MarkdownBlock`, each a single-parameter stub function; the rewrite
applies at every declarator position of the document; and in the
allocation model the three stubs are built by three separate `empty()`
calls, so their node-id sets are pairwise disjoint (no node instance is
shared by two parent slots), while erasing ids recovers exactly the
structural value the transform installs. -/
theorem C4_shared_library_substring_rule (dId s : String) (rest : List Expr)
    (h : strContains s "../../core/CompLibrary" = true) :
    rewriteDeclarator ⟨dId, some (.call (.ident "require") (.str s :: rest))⟩ =
      ⟨dId, some threeStubObject⟩ ∧
    threeStubObject =
      .objE [("Container", emptyStub), ("GridBlock", emptyStub), ("MarkdownBlock", emptyStub)] ∧
    emptyStub = .arrow ["props"] (.jsx "div" [.ident "props"] false []) ∧
    (∀ (b : List Stmt) (path : List Step) (i j : Nat),
      declAt b path i j = some ⟨dId, some (.call (.ident "require") (.str s :: rest))⟩ →
      declAt (rewriteStmts b) path i j = some ⟨dId, some threeStubObject⟩) ∧
    (∀ n : Nat,
      threeStubAlloc n =
        (.objE (n + 9)
          [("Container", (emptyAlloc n).1), ("GridBlock", (emptyAlloc (n + 3)).1),
           ("MarkdownBlock", (emptyAlloc (n + 6)).1)], n + 10) ∧
      stripA (threeStubAlloc n).1 = threeStubObject ∧
      List.Disjoint (idsA (emptyAlloc n).1) (idsA (emptyAlloc (n + 3)).1) ∧
      List.Disjoint (idsA (emptyAlloc n).1) (idsA (emptyAlloc (n + 6)).1) ∧
      List.Disjoint (idsA (emptyAlloc (n + 3)).1) (idsA (emptyAlloc (n + 6)).1)) := by
  have hrw : rewriteDeclarator ⟨dId, some (.call (.ident "require") (.str s :: rest))⟩ =
      ⟨dId, some threeStubObject⟩ := by
    simp [rewriteDeclarator, classifyCallArg, h, applyDecision]
  refine ⟨hrw, rfl, rfl, ?_, ?_⟩
  · intro b path i j hd
    rw [declAt_rewriteStmts, hd, Option.map_some', hrw]
  · intro n
    refine ⟨rfl, rfl, ?_, ?_, ?_⟩
    · intro a ha hb
      simp [emptyAlloc, idsA, idsList] at ha hb
      omega
    · intro a ha hb
      simp [emptyAlloc, idsA, idsList] at ha hb
      omega
    · intro a ha hb
      simp [emptyAlloc, idsA, idsList] at ha hb
      omega

/-- C4 witness: the concrete path string `'../../core/CompLibrary'`. -/
theorem C4_shared_library_substring_rule_witness :
    strContains "../../core/CompLibrary" "../../core/CompLibrary" = true ∧
    rewriteDeclarator ⟨"CompLibrary", some (.call (.ident "require") [.str "../../core/CompLibrary"])⟩ =
      ⟨"CompLibrary", some threeStubObject⟩ :=
  ⟨rfl,
    (C4_shared_library_substring_rule "CompLibrary" "../../core/CompLibrary" [] rfl).1⟩

/-- C5: a member access on a `require` call whose first argument is the
string literal exactly `'../../core/CompLibrary.js'` rebinds the identifier
to the same three-stub object literal the shared-library substring rule
produces, at every declarator position of the document. -/
theorem C5_member_access_exact_path_rule (dId : String) (rest : List Expr) (prop : Expr) :
    rewriteDeclarator
        ⟨dId, some (.member (.call (.ident "require") (.str "../../core/CompLibrary.js" :: rest)) prop)⟩ =
      ⟨dId, some threeStubObject⟩ ∧
    rewriteDeclarator ⟨dId, some (.call (.ident "require") [.str "../../core/CompLibrary"])⟩ =
      ⟨dId, some threeStubObject⟩ ∧
    (∀ (b : List Stmt) (path : List Step) (i j : Nat),
      declAt b path i j =
        some ⟨dId, some (.member (.call (.ident "require") (.str "../../core/CompLibrary.js" :: rest)) prop)⟩ →
      declAt (rewriteStmts b) path i j = some ⟨dId, some threeStubObject⟩) := by
  have hrw : rewriteDeclarator
      ⟨dId, some (.member (.call (.ident "require") (.str "../../core/CompLibrary.js" :: rest)) prop)⟩ =
      ⟨dId, some threeStubObject⟩ := by
    simp [rewriteDeclarator, classifyMemberArg, applyDecision]
  refine ⟨hrw,
    by simp [rewriteDeclarator, classifyCallArg, applyDecision,
      show strContains "../../core/CompLibrary" "../../core/CompLibrary" = true from rfl], ?_⟩
  intro b path i j hd
  rw [declAt_rewriteStmts, hd, Option.map_some', hrw]

/-- C5 witness: the member-access rewrite applied at the only declarator of
a one-statement document. -/
theorem C5_member_access_exact_path_rule_witness :
    declAt [Stmt.varDecl "const"
        [⟨"CompLibrary", some (.member (.call (.ident "require") [.str "../../core/CompLibrary.js"]) (.ident "default"))⟩]]
      [] 0 0 =
      some ⟨"CompLibrary", some (.member (.call (.ident "require") [.str "../../core/CompLibrary.js"]) (.ident "default"))⟩ ∧
    declAt (rewriteStmts
        [Stmt.varDecl "const"
          [⟨"CompLibrary", some (.member (.call (.ident "require") [.str "../../core/CompLibrary.js"]) (.ident "default"))⟩]])
      [] 0 0 = some ⟨"CompLibrary", some threeStubObject⟩ :=
  ⟨rfl,
    (C5_member_access_exact_path_rule "CompLibrary" [] (.ident "default")).2.2
      [Stmt.varDecl "const"
        [⟨"CompLibrary", some (.member (.call (.ident "require") [.str "../../core/CompLibrary.js"]) (.ident "default"))⟩]]
      [] 0 0 rfl⟩

/-- C6: a template-literal module-load argument is classified by the
concatenation of its raw text segments alone (the embedded expressions
`es` are ignored): when the concatenation contains `/core/` the declarator
is rebound to exactly one single-parameter stub function (not the
three-stub object), in both the direct-call and member-access paths; when
it does not, the declarator is left unchanged. -/
theorem C6_template_literal_core_rule (dId : String) (qs : List String)
    (es rest : List Expr) (prop : Expr) :
    (strContains (String.join qs) "/core/" = true →
      rewriteDeclarator ⟨dId, some (.call (.ident "require") (.tmpl qs es :: rest))⟩ =
        ⟨dId, some (.arrow ["props"] (.jsx "div" [.ident "props"] false []))⟩ ∧
      rewriteDeclarator ⟨dId, some (.member (.call (.ident "require") (.tmpl qs es :: rest)) prop)⟩ =
        ⟨dId, some (.arrow ["props"] (.jsx "div" [.ident "props"] false []))⟩) ∧
    (strContains (String.join qs) "/core/" = false →
      rewriteDeclarator ⟨dId, some (.call (.ident "require") (.tmpl qs es :: rest))⟩ =
        ⟨dId, some (.call (.ident "require") (.tmpl qs es :: rest))⟩ ∧
      rewriteDeclarator ⟨dId, some (.member (.call (.ident "require") (.tmpl qs es :: rest)) prop)⟩ =
        ⟨dId, some (.member (.call (.ident "require") (.tmpl qs es :: rest)) prop)⟩) := by
  constructor
  · intro h
    constructor
    · simp [rewriteDeclarator, classifyCallArg, h, applyDecision, emptyStub]
    · simp [rewriteDeclarator, classifyMemberArg, h, applyDecision, emptyStub]
  · intro h
    constructor
    · simp [rewriteDeclarator, classifyCallArg, h, applyDecision]
    · simp [rewriteDeclarator, classifyMemberArg, h, applyDecision]

/-- C6 witness: a template whose segments join to `'../../core/Foo'`
(match) and one joining to `'./lib'` (no match). -/
theorem C6_template_literal_core_rule_witness :
    strContains (String.join ["../..", "/core/", "Foo"]) "/core/" = true ∧
    rewriteDeclarator
        ⟨"x", some (.call (.ident "require") [.tmpl ["../..", "/core/", "Foo"] [.ident "v"]])⟩ =
      ⟨"x", some (.arrow ["props"] (.jsx "div" [.ident "props"] false []))⟩ ∧
    strContains (String.join ["./lib"]) "/core/" = false ∧
    rewriteDeclarator ⟨"y", some (.call (.ident "require") [.tmpl ["./lib"] []])⟩ =
      ⟨"y", some (.call (.ident "require") [.tmpl ["./lib"] []])⟩ :=
  ⟨rfl,
    ((C6_template_literal_core_rule "x" ["../..", "/core/", "Foo"] [.ident "v"] [] (.ident "p")).1 rfl).1,
    rfl,
    ((C6_template_literal_core_rule "y" ["./lib"] [] [] (.ident "p")).2 rfl).1⟩

/-! ## Identity and preservation lemmas -/

theorem rewriteDeclarator_of_notCand (d : Declarator) (h : declNotCand d = true) :
    rewriteDeclarator d = d := by
  unfold rewriteDeclarator
  split
  · next args heq =>
      exfalso
      simp [declNotCand, declMatchesDefault, heq] at h
  · next args prop heq =>
      exfalso
      simp [declNotCand, declMatchesNamed, heq] at h
  · rfl

theorem notCand_rewriteDeclarator (d : Declarator) (h : declRewritten d = true) :
    declNotCand (rewriteDeclarator d) = true := by
  unfold rewriteDeclarator
  split
  · next args heq =>
      have hd : declRewritten d = !(classifyCallArg args.head? == .noop) := by
        unfold declRewritten
        rw [heq]
        rfl
      rw [hd] at h
      cases hdec : classifyCallArg args.head? with
      | threeStub => rfl
      | singleStub => rfl
      | noop => rw [hdec] at h; simp at h
  · next args prop heq =>
      have hd : declRewritten d = !(classifyMemberArg args.head? == .noop) := by
        unfold declRewritten
        rw [heq]
        rfl
      rw [hd] at h
      cases hdec : classifyMemberArg args.head? with
      | threeStub => rfl
      | singleStub => rfl
      | noop => rw [hdec] at h; simp at h
  · next h1 h2 =>
      have hdef : declMatchesDefault d = false := by
        unfold declMatchesDefault
        split
        · next args heq => exact absurd heq (by intro hh; exact h1 args hh)
        · rfl
      have hnam : declMatchesNamed d = false := by
        unfold declMatchesNamed
        split
        · next args prop heq => exact absurd heq (by intro hh; exact h2 args prop hh)
        · rfl
      simp [declNotCand, hdef, hnam]

theorem mapRewrite_of_allNotCand (ds : List Declarator) (h : ds.all declNotCand = true) :
    ds.map rewriteDeclarator = ds := by
  induction ds with
  | nil => rfl
  | cons d r ih =>
      rw [List.all_cons, Bool.and_eq_true] at h
      simp [rewriteDeclarator_of_notCand d h.1, ih h.2]

theorem allNotCand_mapRewrite (ds : List Declarator) (h : ds.all declRewritten = true) :
    (ds.map rewriteDeclarator).all declNotCand = true := by
  induction ds with
  | nil => rfl
  | cons d r ih =>
      rw [List.all_cons, Bool.and_eq_true] at h
      simp only [List.map_cons, List.all_cons, Bool.and_eq_true]
      exact ⟨notCand_rewriteDeclarator d h.1, ih h.2⟩

mutual

theorem rewriteStmt_of_candFree : ∀ s : Stmt, candFreeStmt s = true → rewriteStmt s = s
  | .varDecl k ds, h => by
      simp only [candFreeStmt] at h
      simp only [rewriteStmt, mapRewrite_of_allNotCand ds h]
  | .exprStmt e cs, _ => rfl
  | .ifStmt t c none, h => by
      simp only [candFreeStmt, Bool.and_eq_true] at h
      simp only [rewriteStmt, rewriteStmts_of_candFree c h.1]
  | .ifStmt t c (some bb), h => by
      simp only [candFreeStmt, Bool.and_eq_true] at h
      simp only [rewriteStmt, rewriteStmts_of_candFree c h.1, rewriteStmts_of_candFree bb h.2]
  | .block bb, h => by
      simp only [candFreeStmt] at h
      simp only [rewriteStmt, rewriteStmts_of_candFree bb h]
  | .funcDecl n prm bb, h => by
      simp only [candFreeStmt] at h
      simp only [rewriteStmt, rewriteStmts_of_candFree bb h]
  | .importDecl _ _, _ => rfl
  | .exportDefault _ _, _ => rfl
termination_by s _ => sizeOf s

theorem rewriteStmts_of_candFree : ∀ l : List Stmt, candFreeStmts l = true → rewriteStmts l = l
  | [], _ => rfl
  | s :: r, h => by
      simp only [candFreeStmts, Bool.and_eq_true] at h
      simp only [rewriteStmts, rewriteStmt_of_candFree s h.1, rewriteStmts_of_candFree r h.2]
termination_by l _ => sizeOf l

end

mutual

theorem exportStmt_of_exportFree : ∀ s : Stmt, exportFreeStmt s = true → exportStmt s = s
  | .varDecl k ds, _ => rfl
  | .exprStmt e cs, h => by
      simp only [exportFreeStmt, Option.isNone_iff_eq_none] at h
      simp only [exportStmt, h]
  | .ifStmt t c none, h => by
      simp only [exportFreeStmt, Bool.and_eq_true] at h
      simp only [exportStmt, exportStmts_of_exportFree c h.1]
  | .ifStmt t c (some bb), h => by
      simp only [exportFreeStmt, Bool.and_eq_true] at h
      simp only [exportStmt, exportStmts_of_exportFree c h.1, exportStmts_of_exportFree bb h.2]
  | .block bb, h => by
      simp only [exportFreeStmt] at h
      simp only [exportStmt, exportStmts_of_exportFree bb h]
  | .funcDecl n prm bb, h => by
      simp only [exportFreeStmt] at h
      simp only [exportStmt, exportStmts_of_exportFree bb h]
  | .importDecl _ _, _ => rfl
  | .exportDefault _ _, _ => rfl
termination_by s _ => sizeOf s

theorem exportStmts_of_exportFree : ∀ l : List Stmt, exportFreeStmts l = true → exportStmts l = l
  | [], _ => rfl
  | s :: r, h => by
      simp only [exportFreeStmts, Bool.and_eq_true] at h
      simp only [exportStmts, exportStmt_of_exportFree s h.1, exportStmts_of_exportFree r h.2]
termination_by l _ => sizeOf l

end

theorem candsOfDecls_of_allNotCand (pred : Declarator → Bool)
    (hp : ∀ d, declNotCand d = true → pred d = false) :
    ∀ (ds : List Declarator) (j : Nat), ds.all declNotCand = true →
      candsOfDecls pred j ds = [] := by
  intro ds
  induction ds with
  | nil => intro j _; rfl
  | cons d r ih =>
      intro j h
      rw [List.all_cons, Bool.and_eq_true] at h
      simp [candsOfDecls, hp d h.1, ih (j + 1) h.2]

mutual

theorem findInStmt_of_candFree (pred : Declarator → Bool)
    (hp : ∀ d, declNotCand d = true → pred d = false) :
    ∀ s : Stmt, candFreeStmt s = true → findInStmt pred s = []
  | .varDecl k ds, h => by
      simp only [candFreeStmt] at h
      simp only [findInStmt, candsOfDecls_of_allNotCand pred hp ds 0 h]
  | .exprStmt e cs, _ => rfl
  | .ifStmt t c none, h => by
      simp only [candFreeStmt, Bool.and_eq_true] at h
      simp only [findInStmt, findIn_of_candFree pred hp c h.1, List.map_nil, List.append_nil]
  | .ifStmt t c (some bb), h => by
      simp only [candFreeStmt, Bool.and_eq_true] at h
      simp only [findInStmt, findIn_of_candFree pred hp c h.1,
        findIn_of_candFree pred hp bb h.2, List.map_nil, List.append_nil]
  | .block bb, h => by
      simp only [candFreeStmt] at h
      simp only [findInStmt, findIn_of_candFree pred hp bb h, List.map_nil]
  | .funcDecl n prm bb, h => by
      simp only [candFreeStmt] at h
      simp only [findInStmt, findIn_of_candFree pred hp bb h, List.map_nil]
  | .importDecl _ _, _ => rfl
  | .exportDefault _ _, _ => rfl
termination_by s _ => sizeOf s

theorem findIn_of_candFree (pred : Declarator → Bool)
    (hp : ∀ d, declNotCand d = true → pred d = false) :
    ∀ l : List Stmt, candFreeStmts l = true → findIn pred l = []
  | [], _ => rfl
  | s :: r, h => by
      simp only [candFreeStmts, Bool.and_eq_true] at h
      simp only [findIn, findInStmt_of_candFree pred hp s h.1,
        findIn_of_candFree pred hp r h.2, List.map_nil, List.append_nil]
termination_by l _ => sizeOf l

end

theorem default_of_notCand (d : Declarator) (h : declNotCand d = true) :
    declMatchesDefault d = false := by
  unfold declNotCand at h
  rcases Bool.or_eq_false_iff.mp (by simpa using h) with ⟨h1, _⟩
  exact h1

theorem named_of_notCand (d : Declarator) (h : declNotCand d = true) :
    declMatchesNamed d = false := by
  unfold declNotCand at h
  rcases Bool.or_eq_false_iff.mp (by simpa using h) with ⟨_, h2⟩
  exact h2

/-- On a candidate-free and export-candidate-free program the transformer
is the identity. -/
theorem transformer_of_free (b : List Stmt) (hc : candFreeStmts b = true)
    (he : exportFreeStmts b = true) : transformer b = b := by
  have hpaths : getImportDeclaratorPaths b = [] := by
    unfold getImportDeclaratorPaths
    rw [findIn_of_candFree declMatchesDefault default_of_notCand b hc,
      findIn_of_candFree declMatchesNamed named_of_notCand b hc]
    rfl
  have hphase : importPhase b = b := by
    unfold importPhase
    rw [hpaths]
    exact rewriteStmts_of_candFree b hc
  unfold transformer
  rw [hphase]
  exact exportStmts_of_exportFree b he

mutual

theorem candFree_rewriteStmt_of_noNoop : ∀ s : Stmt, noNoopStmt s = true →
    candFreeStmt (rewriteStmt s) = true
  | .varDecl k ds, h => by
      simp only [noNoopStmt] at h
      simp only [rewriteStmt, candFreeStmt]
      exact allNotCand_mapRewrite ds h
  | .exprStmt e cs, _ => rfl
  | .ifStmt t c none, h => by
      simp only [noNoopStmt, Bool.and_eq_true] at h
      simp only [rewriteStmt, candFreeStmt, candFree_rewriteStmts_of_noNoop c h.1]
      rfl
  | .ifStmt t c (some bb), h => by
      simp only [noNoopStmt, Bool.and_eq_true] at h
      simp only [rewriteStmt, candFreeStmt, candFree_rewriteStmts_of_noNoop c h.1,
        candFree_rewriteStmts_of_noNoop bb h.2]
      rfl
  | .block bb, h => by
      simp only [noNoopStmt] at h
      simp only [rewriteStmt, candFreeStmt, candFree_rewriteStmts_of_noNoop bb h]
  | .funcDecl n prm bb, h => by
      simp only [noNoopStmt] at h
      simp only [rewriteStmt, candFreeStmt, candFree_rewriteStmts_of_noNoop bb h]
  | .importDecl _ _, _ => rfl
  | .exportDefault _ _, _ => rfl
termination_by s _ => sizeOf s

theorem candFree_rewriteStmts_of_noNoop : ∀ l : List Stmt, noNoopStmts l = true →
    candFreeStmts (rewriteStmts l) = true
  | [], _ => rfl
  | s :: r, h => by
      simp only [noNoopStmts, Bool.and_eq_true] at h
      simp only [rewriteStmts, candFreeStmts, candFree_rewriteStmt_of_noNoop s h.1,
        candFree_rewriteStmts_of_noNoop r h.2]
      rfl
termination_by l _ => sizeOf l

end

mutual

theorem candFree_exportStmt : ∀ s : Stmt, candFreeStmt s = true →
    candFreeStmt (exportStmt s) = true
  | .varDecl k ds, h => by simpa [exportStmt] using h
  | .exprStmt e cs, _ => by
      cases he : isExportAssign e with
      | none => simp [exportStmt, he, candFreeStmt]
      | some x => simp [exportStmt, he, candFreeStmt]
  | .ifStmt t c none, h => by
      simp only [candFreeStmt, Bool.and_eq_true] at h
      simp only [exportStmt, candFreeStmt, candFree_exportStmts c h.1]
      rfl
  | .ifStmt t c (some bb), h => by
      simp only [candFreeStmt, Bool.and_eq_true] at h
      simp only [exportStmt, candFreeStmt, candFree_exportStmts c h.1,
        candFree_exportStmts bb h.2]
      rfl
  | .block bb, h => by
      simp only [candFreeStmt] at h
      simp only [exportStmt, candFreeStmt, candFree_exportStmts bb h]
  | .funcDecl n prm bb, h => by
      simp only [candFreeStmt] at h
      simp only [exportStmt, candFreeStmt, candFree_exportStmts bb h]
  | .importDecl _ _, _ => rfl
  | .exportDefault _ _, _ => rfl
termination_by s _ => sizeOf s

theorem candFree_exportStmts : ∀ l : List Stmt, candFreeStmts l = true →
    candFreeStmts (exportStmts l) = true
  | [], _ => rfl
  | s :: r, h => by
      simp only [candFreeStmts, Bool.and_eq_true] at h
      simp only [exportStmts, candFreeStmts, candFree_exportStmt s h.1,
        candFree_exportStmts r h.2]
      rfl
termination_by l _ => sizeOf l

end

mutual

theorem exportFree_exportStmt : ∀ s : Stmt, exportFreeStmt (exportStmt s) = true
  | .varDecl k ds => rfl
  | .exprStmt e cs => by
      cases he : isExportAssign e with
      | none => simp [exportStmt, he, exportFreeStmt]
      | some x => simp [exportStmt, he, exportFreeStmt]
  | .ifStmt t c none => by
      simp only [exportStmt, exportFreeStmt, exportFree_exportStmts c]
      rfl
  | .ifStmt t c (some bb) => by
      simp only [exportStmt, exportFreeStmt, exportFree_exportStmts c,
        exportFree_exportStmts bb]
      rfl
  | .block bb => by
      simp only [exportStmt, exportFreeStmt, exportFree_exportStmts bb]
  | .funcDecl n prm bb => by
      simp only [exportStmt, exportFreeStmt, exportFree_exportStmts bb]
  | .importDecl _ _ => rfl
  | .exportDefault _ _ => rfl
termination_by s => sizeOf s

theorem exportFree_exportStmts : ∀ l : List Stmt, exportFreeStmts (exportStmts l) = true
  | [] => rfl
  | s :: r => by
      simp only [exportStmts, exportFreeStmts, exportFree_exportStmt s,
        exportFree_exportStmts r]
      rfl
termination_by l => sizeOf l

end

theorem candFreeStmts_all (l : List Stmt) : candFreeStmts l = l.all candFreeStmt := by
  induction l with
  | nil => rfl
  | cons s r ih => simp [candFreeStmts, List.all_cons, ih]

theorem candFreeStmt_of_getElem (l : List Stmt) (j : Nat) (st : Stmt)
    (hl : candFreeStmts l = true) (hj : l[j]? = some st) : candFreeStmt st = true := by
  rw [candFreeStmts_all, List.all_eq_true] at hl
  exact hl st (List.getElem?_mem hj)

theorem candFreeStmts_set (l : List Stmt) :
    ∀ (j : Nat) (x : Stmt), candFreeStmts l = true → candFreeStmt x = true →
      candFreeStmts (l.set j x) = true := by
  induction l with
  | nil => intro j x _ _; rfl
  | cons s r ih =>
      intro j x hl hx
      simp only [candFreeStmts, Bool.and_eq_true] at hl
      cases j with
      | zero => simp [candFreeStmts, hx, hl.2]
      | succ j =>
          simp only [List.set_cons_succ, candFreeStmts, hl.1, ih j x hl.2 hx]
          rfl

theorem candFree_splice (B : List Stmt) (i : Nat) (s : Stmt)
    (hB : candFreeStmts B = true) (hs : candFreeStmt s = true) :
    candFreeStmts (B.take (i + 1) ++ s :: B.drop (i + 1)) = true := by
  rw [candFreeStmts_all, List.all_eq_true] at hB ⊢
  intro x hx
  rcases List.mem_append.mp hx with hx | hx
  · exact hB x (List.mem_of_mem_take hx)
  · rcases List.mem_cons.mp hx with hx | hx
    · subst hx; exact hs
    · exact hB x (List.mem_of_mem_drop hx)

theorem candFree_modifyAt (ps : List Step) :
    ∀ (b : List Stmt) (f : List Stmt → List Stmt), candFreeStmts b = true →
      (∀ B, candFreeStmts B = true → candFreeStmts (f B) = true) →
      candFreeStmts (modifyAt b f ps) = true := by
  induction ps with
  | nil => intro b f hb hf; exact hf b hb
  | cons st ps ih =>
      intro b f hb hf
      cases st with
      | intoBlock j =>
          cases hj : b[j]? with
          | none => simpa [modifyAt, hj] using hb
          | some s =>
              cases s with
              | block bb =>
                  have hbb : candFreeStmts bb = true := by
                    have := candFreeStmt_of_getElem b j (.block bb) hb hj
                    simpa [candFreeStmt] using this
                  simp only [modifyAt, hj]
                  exact candFreeStmts_set b j _ hb
                    (by simpa [candFreeStmt] using ih bb f hbb hf)
              | _ => simpa [modifyAt, hj] using hb
      | intoFunc j =>
          cases hj : b[j]? with
          | none => simpa [modifyAt, hj] using hb
          | some s =>
              cases s with
              | funcDecl n prm bb =>
                  have hbb : candFreeStmts bb = true := by
                    have := candFreeStmt_of_getElem b j (.funcDecl n prm bb) hb hj
                    simpa [candFreeStmt] using this
                  simp only [modifyAt, hj]
                  exact candFreeStmts_set b j _ hb
                    (by simpa [candFreeStmt] using ih bb f hbb hf)
              | _ => simpa [modifyAt, hj] using hb
      | intoCons j =>
          cases hj : b[j]? with
          | none => simpa [modifyAt, hj] using hb
          | some s =>
              cases s with
              | ifStmt t cc a =>
                  have hcc := candFreeStmt_of_getElem b j (.ifStmt t cc a) hb hj
                  simp only [modifyAt, hj]
                  cases a with
                  | none =>
                      simp only [candFreeStmt, Bool.and_eq_true] at hcc
                      exact candFreeStmts_set b j _ hb
                        (by simp [candFreeStmt, ih cc f hcc.1 hf])
                  | some aa =>
                      simp only [candFreeStmt, Bool.and_eq_true] at hcc
                      exact candFreeStmts_set b j _ hb
                        (by simp [candFreeStmt, ih cc f hcc.1 hf, hcc.2])
              | _ => simpa [modifyAt, hj] using hb
      | intoAlt j =>
          cases hj : b[j]? with
          | none => simpa [modifyAt, hj] using hb
          | some s =>
              cases s with
              | ifStmt t cc a =>
                  cases a with
                  | none => simpa [modifyAt, hj] using hb
                  | some aa =>
                      have hcc := candFreeStmt_of_getElem b j (.ifStmt t cc (some aa)) hb hj
                      simp only [candFreeStmt, Bool.and_eq_true] at hcc
                      simp only [modifyAt, hj]
                      exact candFreeStmts_set b j _ hb
                        (by simp [candFreeStmt, hcc.1, ih aa f hcc.2 hf])
              | _ => simpa [modifyAt, hj] using hb

/-- The output of the transformer is always candidate-free when every
candidate of the input classifies to a rewrite. -/
theorem candFree_transformer_of_noNoop (b : List Stmt) (h : noNoopStmts b = true) :
    candFreeStmts (transformer b) = true := by
  have h1 : candFreeStmts (rewriteStmts b) = true := candFree_rewriteStmts_of_noNoop b h
  have h2 : candFreeStmts (importPhase b) = true := by
    unfold importPhase
    cases hlast : (getImportDeclaratorPaths b).getLast? with
    | none => exact h1
    | some c =>
        unfold insertAfterLoc
        exact candFree_modifyAt c.path (rewriteStmts b) _ h1
          (fun B hB => candFree_splice B c.stmtIdx companionImport hB rfl)
  unfold transformer
  exact candFree_exportStmts (importPhase b) h2

theorem declNotLayout_rewrite (d : Declarator) :
    declNotLayout (rewriteDeclarator d) = declNotLayout d := by
  unfold rewriteDeclarator
  split
  · next args heq => cases classifyCallArg args.head? <;> rfl
  · next args prop heq => cases classifyMemberArg args.head? <;> rfl
  · rfl

theorem allNotLayout_mapRewrite (ds : List Declarator) :
    (ds.map rewriteDeclarator).all declNotLayout = ds.all declNotLayout := by
  induction ds with
  | nil => rfl
  | cons d r ih => simp [List.all_cons, declNotLayout_rewrite d, ih]

mutual

theorem layoutFree_rewriteStmt : ∀ s : Stmt, layoutFreeStmt (rewriteStmt s) = layoutFreeStmt s
  | .varDecl k ds => by
      simp only [rewriteStmt, layoutFreeStmt, allNotLayout_mapRewrite ds]
  | .exprStmt e cs => rfl
  | .ifStmt t c none => by
      simp only [rewriteStmt, layoutFreeStmt, layoutFree_rewriteStmts c]
  | .ifStmt t c (some bb) => by
      simp only [rewriteStmt, layoutFreeStmt, layoutFree_rewriteStmts c,
        layoutFree_rewriteStmts bb]
  | .block bb => by
      simp only [rewriteStmt, layoutFreeStmt, layoutFree_rewriteStmts bb]
  | .funcDecl n prm bb => by
      simp only [rewriteStmt, layoutFreeStmt, layoutFree_rewriteStmts bb]
  | .importDecl _ _ => rfl
  | .exportDefault _ _ => rfl
termination_by s => sizeOf s

theorem layoutFree_rewriteStmts : ∀ l : List Stmt,
    layoutFreeStmts (rewriteStmts l) = layoutFreeStmts l
  | [] => rfl
  | s :: r => by
      simp only [rewriteStmts, layoutFreeStmts, layoutFree_rewriteStmt s,
        layoutFree_rewriteStmts r]
termination_by l => sizeOf l

end

mutual

theorem layoutFree_exportStmt : ∀ s : Stmt, layoutFreeStmt (exportStmt s) = layoutFreeStmt s
  | .varDecl k ds => rfl
  | .exprStmt e cs => by
      cases he : isExportAssign e with
      | none => simp [exportStmt, he]
      | some x => simp [exportStmt, he, layoutFreeStmt]
  | .ifStmt t c none => by
      simp only [exportStmt, layoutFreeStmt, layoutFree_exportStmts c]
  | .ifStmt t c (some bb) => by
      simp only [exportStmt, layoutFreeStmt, layoutFree_exportStmts c,
        layoutFree_exportStmts bb]
  | .block bb => by
      simp only [exportStmt, layoutFreeStmt, layoutFree_exportStmts bb]
  | .funcDecl n prm bb => by
      simp only [exportStmt, layoutFreeStmt, layoutFree_exportStmts bb]
  | .importDecl _ _ => rfl
  | .exportDefault _ _ => rfl
termination_by s => sizeOf s

theorem layoutFree_exportStmts : ∀ l : List Stmt,
    layoutFreeStmts (exportStmts l) = layoutFreeStmts l
  | [] => rfl
  | s :: r => by
      simp only [exportStmts, layoutFreeStmts, layoutFree_exportStmt s,
        layoutFree_exportStmts r]
termination_by l => sizeOf l

end

/-- C7 (amended): for documents in which every Binding Candidate classifies
to an actual rewrite (no candidate is a no-op), the transform's output
contains zero Binding Candidates and zero Export Assignment Candidates, and
a second transform is the identity on it: no structural change and no
further companion import.  The unrestricted claim is refuted by
`C7_counterexample`, where a no-op candidate survives and triggers a second
companion import. -/
theorem C7_amended_idempotence (b : List Stmt) (h : noNoopStmts b = true) :
    getImportDeclaratorPaths (transformer b) = [] ∧
    exportFreeStmts (transformer b) = true ∧
    transformer (transformer b) = transformer b := by
  have hc : candFreeStmts (transformer b) = true := candFree_transformer_of_noNoop b h
  have he : exportFreeStmts (transformer b) = true := by
    unfold transformer
    exact exportFree_exportStmts (importPhase b)
  refine ⟨?_, he, transformer_of_free (transformer b) hc he⟩
  unfold getImportDeclaratorPaths
  rw [findIn_of_candFree declMatchesDefault default_of_notCand (transformer b) hc,
    findIn_of_candFree declMatchesNamed named_of_notCand (transformer b) hc]
  rfl

/-- C7 witness: a document whose single candidate is the CompLibrary
require (a three-stub rewrite, not a no-op). -/
theorem C7_amended_idempotence_witness :
    noNoopStmts
        [Stmt.varDecl "const"
          [⟨"CompLibrary", some (.call (.ident "require") [.str "../../core/CompLibrary"])⟩]] = true ∧
    transformer (transformer
        [Stmt.varDecl "const"
          [⟨"CompLibrary", some (.call (.ident "require") [.str "../../core/CompLibrary"])⟩]]) =
      transformer
        [Stmt.varDecl "const"
          [⟨"CompLibrary", some (.call (.ident "require") [.str "../../core/CompLibrary"])⟩]] :=
  ⟨rfl,
    (C7_amended_idempotence
      [Stmt.varDecl "const"
        [⟨"CompLibrary", some (.call (.ident "require") [.str "../../core/CompLibrary"])⟩]]
      rfl).2.2⟩

/-- C9: a document with no Binding Candidate anywhere (no declarator whose
initializer is a `require` call or a member access on one) and no
statement-level `module.exports = <identifier>` assignment anywhere is
returned unchanged by the transform: nothing is rewritten, replaced or
inserted. -/
theorem C9_no_candidate_identity (b : List Stmt)
    (hc : candFreeStmts b = true) (he : exportFreeStmts b = true) :
    transformer b = b :=
  transformer_of_free b hc he

/-- C9 witness: a document with an ordinary declaration, a function whose
body calls it, and a braced conditional. -/
theorem C9_no_candidate_identity_witness :
    candFreeStmts
        [Stmt.varDecl "const" [⟨"a", some (.num 1)⟩],
         Stmt.funcDecl "g" ["p"] [.exprStmt (.call (.ident "g") [.ident "a"]) []],
         Stmt.ifStmt (.ident "a") [.exprStmt (.call (.ident "g") []) []] none] = true ∧
    exportFreeStmts
        [Stmt.varDecl "const" [⟨"a", some (.num 1)⟩],
         Stmt.funcDecl "g" ["p"] [.exprStmt (.call (.ident "g") [.ident "a"]) []],
         Stmt.ifStmt (.ident "a") [.exprStmt (.call (.ident "g") []) []] none] = true ∧
    transformer
        [Stmt.varDecl "const" [⟨"a", some (.num 1)⟩],
         Stmt.funcDecl "g" ["p"] [.exprStmt (.call (.ident "g") [.ident "a"]) []],
         Stmt.ifStmt (.ident "a") [.exprStmt (.call (.ident "g") []) []] none] =
      [Stmt.varDecl "const" [⟨"a", some (.num 1)⟩],
       Stmt.funcDecl "g" ["p"] [.exprStmt (.call (.ident "g") [.ident "a"]) []],
       Stmt.ifStmt (.ident "a") [.exprStmt (.call (.ident "g") []) []] none] :=
  ⟨rfl, rfl,
    C9_no_candidate_identity
      [Stmt.varDecl "const" [⟨"a", some (.num 1)⟩],
       Stmt.funcDecl "g" ["p"] [.exprStmt (.call (.ident "g") [.ident "a"]) []],
       Stmt.ifStmt (.ident "a") [.exprStmt (.call (.ident "g") []) []] none]
      rfl rfl⟩

/-- C10: on a document with zero Binding Candidates but a top-level
`module.exports = Foo;` statement at index `i`, the transform still
rewrites the export into a default export whose body uses the element tag
`Layout` (same index `i`), while inserting no companion import (the
companion-import count is unchanged), so if the input declared no binding
named `Layout`, neither does the output — the produced code references
`Layout` unbound. -/
theorem C10_layout_unbound (b : List Stmt) (i : Nat) (x : String) (cs : List String)
    (hempty : getImportDeclaratorPaths b = [])
    (hstmt : b[i]? =
      some (.exprStmt (.assign "=" (.member (.ident "module") (.ident "exports")) (.ident x)) cs))
    (hfree : layoutFreeStmts b = true) :
    (transformer b)[i]? =
      some (.exportDefault
        (.arrow ["props"] (.jsx "Layout" [] false [.jsx x [.ident "props"] true []])) cs) ∧
    ccStmts (transformer b) = ccStmts b ∧
    layoutFreeStmts (transformer b) = true := by
  have hphase : importPhase b = rewriteStmts b := by
    unfold importPhase
    rw [hempty]
    rfl
  refine ⟨?_, ?_, ?_⟩
  · unfold transformer
    rw [hphase, getElem?_exportStmts, getElem?_rewriteStmts, hstmt]
    rfl
  · unfold transformer
    rw [hphase, ccStmts_exportStmts, ccStmts_rewriteStmts]
  · unfold transformer
    rw [hphase, layoutFree_exportStmts, layoutFree_rewriteStmts]
    exact hfree

/-- C10 witness: the one-statement document `module.exports = Foo;`. -/
theorem C10_layout_unbound_witness :
    getImportDeclaratorPaths
        [Stmt.exprStmt (.assign "=" (.member (.ident "module") (.ident "exports")) (.ident "Foo"))
          ["c10"]] = [] ∧
    (transformer
        [Stmt.exprStmt (.assign "=" (.member (.ident "module") (.ident "exports")) (.ident "Foo"))
          ["c10"]])[0]? =
      some (.exportDefault
        (.arrow ["props"] (.jsx "Layout" [] false [.jsx "Foo" [.ident "props"] true []]))
        ["c10"]) ∧
    layoutFreeStmts (transformer
        [Stmt.exprStmt (.assign "=" (.member (.ident "module") (.ident "exports")) (.ident "Foo"))
          ["c10"]]) = true :=
  ⟨rfl,
    (C10_layout_unbound
      [Stmt.exprStmt (.assign "=" (.member (.ident "module") (.ident "exports")) (.ident "Foo"))
        ["c10"]]
      0 "Foo" ["c10"] rfl rfl rfl).1,
    (C10_layout_unbound
      [Stmt.exprStmt (.assign "=" (.member (.ident "module") (.ident "exports")) (.ident "Foo"))
        ["c10"]]
      0 "Foo" ["c10"] rfl rfl rfl).2.2⟩
